import Mathlib

/-!
Verification of the `ios_filter` tabulator engine
(`src/include/ios_filter/utf_utils.h`, `src/include/ios_filter/tabulator.h`).

The C++ code is embedded shallowly:
* code units are `Nat` (byte values; `putc` stores `ch % 256`, mirroring the
  conversion to `char`);
* the per-cell `std::deque<char_type>` buffer is a `List Nat` with the front
  of the deque at the head of the list;
* iterators into the buffer are indices (`Nat`);
* `std::size_t` arithmetic is `Nat` arithmetic (subtraction sites are noted
  where the C++ relies on an invariant to avoid wrap-around);
* operations whose C++ original can dereference an invalid iterator, index
  out of range, or fail an `assert` return `Option`, with `none` for those
  error states;
* a streambuf sink is modelled by returning the list of code units written.
-/

namespace IosFilter

set_option maxRecDepth 8192

/-- `utf_char_score` from `utf_utils.h` for 8-bit code units: -1 for a UTF-8
continuation byte, 1/2/3 for a 2/3/4-byte lead byte, 0 otherwise. -/
def utf_char_score (ch : Nat) : Int :=
  if ch &&& 0xC0 = 0x80 then -1
  else if ch &&& 0xE0 = 0xC0 then 1
  else if ch &&& 0xF0 = 0xE0 then 2
  else if ch &&& 0xF8 = 0xF0 then 3
  else 0

/-- The loop of `utflen(begin, end)`: running score `cbr`, counting the
positions where the running sum returns to zero. -/
def utflenAux : Int → List Nat → Nat
  | _, [] => 0
  | cbr, u :: rest =>
      let c := cbr + utf_char_score u
      (if c = 0 then 1 else 0) + utflenAux c rest

/-- `utflen` for 8-bit code units (the non-`char32_t` branch of the source). -/
def utflen (l : List Nat) : Nat := utflenAux 0 l

/-- `utflen` for 32-bit code units: the source returns
`std::distance(begin, end)`, i.e. walks the range counting the steps. -/
def utflen32 (l : List Nat) : Nat :=
  match l with
  | [] => 0
  | _ :: rest => 1 + utflen32 rest

/-- A UTF-8 continuation byte: `(b & 0xC0) == 0x80`, as a byte value. -/
def isCont (b : Nat) : Bool := 0x80 ≤ b ∧ b < 0xC0

/-- A valid encoding of one Unicode code point in UTF-8: one ASCII byte, or a
2/3/4-byte lead followed by continuation bytes. -/
def validCP : List Nat → Bool
  | [b] => b < 0x80
  | [b1, b2] => (0xC0 ≤ b1 ∧ b1 < 0xE0) ∧ isCont b2
  | [b1, b2, b3] => (0xE0 ≤ b1 ∧ b1 < 0xF0) ∧ isCont b2 ∧ isCont b3
  | [b1, b2, b3, b4] => (0xF0 ≤ b1 ∧ b1 < 0xF8) ∧ isCont b2 ∧ isCont b3 ∧ isCont b4
  | _ => false

/-- A valid UTF-8 code-unit sequence: a concatenation of valid code points. -/
def validSeq (cps : List (List Nat)) : Bool := cps.all validCP

/-- `std::isspace` in the C locale over byte values, as used by the cell code
(space, `\t`, `\n`, `\v`, `\f`, `\r`). -/
def isspace (c : Nat) : Bool := c = 32 ∨ (9 ≤ c ∧ c ≤ 13)

/-- Cell justification (`enum class justify`). -/
inductive Justify | left | right | center
deriving DecidableEq, Repr

/-- Cell truncation (`enum class truncate`). -/
inductive Truncate | tnone | tleft | tright
deriving DecidableEq, Repr

/-- Cell line wrapping (`enum class wrap`). -/
inductive Wrap | character | word
deriving DecidableEq, Repr

/-- The UTF-8 bytes of the default ellipsis `"…"` (`UTF8_ELLIPSIS`). -/
def utf8_ellipsis : List Nat := [0xE2, 0x80, 0xA6]

/-- State of `basic_tabulator<char>::cell_info`: buffer of pending bytes
(front of the deque first), column width, code points already written on the
in-progress line, the cell-start latch, the three policies, the two padding
strings, and the ellipsis string. -/
structure CellInfo where
  buf : List Nat
  width : Nat
  written : Nat
  cell_start : Bool
  justify : Justify
  truncate : Truncate
  wrap : Wrap
  lpad : List Nat
  rpad : List Nat
  ellipsis : List Nat
deriving DecidableEq, Repr

/-- `cell_info`'s default construction: width 0, one-space padding on each
side, default UTF-8 ellipsis, left justification, no truncation, character
wrapping, cell-start latch set. -/
def mkCell (width : Nat) : CellInfo :=
  { buf := [], width := width, written := 0, cell_start := true,
    justify := Justify.left, truncate := Truncate.tnone, wrap := Wrap.character,
    lpad := [32], rpad := [32], ellipsis := utf8_ellipsis }

/-- `cell_info::putc`: push a code unit at the back of the buffer (the value
stored is the `char` conversion of the streambuf int, hence `% 256`). -/
def putc (c : CellInfo) (ch : Nat) : CellInfo := { c with buf := c.buf ++ [ch % 256] }

/-- `cell_info::empty`. -/
def cellEmpty (c : CellInfo) : Bool := c.buf.isEmpty

/-- `cell_info::get_cell_width`: column width plus the code-point lengths of
the two padding strings. -/
def get_cell_width (c : CellInfo) : Nat := c.width + utflen c.lpad + utflen c.rpad

/-- The configuration invariant asserted throughout `cell_info`:
`width == 0 || width > utflen(ellipsis)`. -/
def widthEllipsisInv (c : CellInfo) : Prop := c.width = 0 ∨ c.width > utflen c.ellipsis

instance (c : CellInfo) : Decidable (widthEllipsisInv c) := by
  unfold widthEllipsisInv; infer_instance

/-- `cell_info::set_width`: asserts `_width == 0 || _width >= utflen(_ellipsis)`
over the values held on entry (note `>=`, and the pre-assignment `_width`),
then stores the new width.  A failed assertion (debug abort) is `none`. -/
def set_width (c : CellInfo) (w : Nat) : Option CellInfo :=
  if c.width = 0 ∨ c.width ≥ utflen c.ellipsis then some { c with width := w }
  else none

/-- `cell_info::set_truncate`: asserts `_width == 0 || _width > utflen(_ellipsis)`
on entry, then stores the policy. -/
def set_truncate (c : CellInfo) (t : Truncate) : Option CellInfo :=
  if c.width = 0 ∨ c.width > utflen c.ellipsis then some { c with truncate := t }
  else none

/-- `cell_info::set_ellipsis`: asserts `_width == 0 || _width > utflen(_ellipsis)`
over the ellipsis held on entry, then stores the new ellipsis. -/
def set_ellipsis (c : CellInfo) (e : List Nat) : Option CellInfo :=
  if c.width = 0 ∨ c.width > utflen c.ellipsis then some { c with ellipsis := e }
  else none

/-- `cell_info::find_line_end`: advance through the range summing
`utf_char_score`; each time the sum returns to zero one code point is
complete, the budget `width` is decreased, and a `'\n'` stops the scan at the
newline itself.  The result is the number of code units consumed (the offset
of the returned iterator from `begin`). -/
def find_line_end : Int → Nat → List Nat → Nat
  | _, _, [] => 0
  | cbr, width, u :: rest =>
      if width = 0 then 0
      else
        let c := cbr + utf_char_score u
        if c = 0 ∧ u = 10 then 0
        else 1 + find_line_end c (if c = 0 then width - 1 else width) rest

/-- `cell_info::find_last_word`: the offset one past the last full word, i.e.
the position of the last whitespace code unit of the range scanning from its
back (`std::next(rit).base()`), or the length of the range when it contains
no whitespace. -/
def find_last_word (l : List Nat) : Nat :=
  match l.reverse.findIdx? (fun c => isspace c) with
  | some k => l.length - 1 - k
  | _ => l.length

/-- `cell_info::find_output_end` on a full buffer range (the source always
passes `cbegin..cend` or `crbegin..crend`; for the reverse case this function
receives the reversed buffer).  `written` and `wrap` are the members used by
the word-wrap adjustment. -/
def find_output_end (written : Nat) (wrap : Wrap) (l : List Nat) (width : Nat) : Nat :=
  let e := find_line_end 0 width l
  match wrap with
  | Wrap.character => e
  | Wrap.word =>
      if e ≠ l.length then
        let e2 := find_last_word (l.take (e + 1))
        if written > 0 ∧ utflen (l.take e2) > width then 0 else e2
      else e

/-- `cell_info::truncate_buf`: returns the buffer after the in-place
truncation (the truncation branches pop code units and splice in the
ellipsis) together with the end offset for the subsequent drain.
Zero-width cells stop at the first `'\n'`; non-truncating cells use
`find_output_end` with the remaining width; truncating cells that exceed the
width keep `width - utflen(ellipsis)` code points at the kept end and attach
the ellipsis (`size_t` subtraction: the asserted invariant
`width > utflen(ellipsis)` keeps it from wrapping). -/
def truncate_buf (c : CellInfo) : List Nat × Nat :=
  if c.width = 0 then
    (c.buf, c.buf.findIdx (fun u => u = 10))
  else if c.truncate = Truncate.tnone then
    (c.buf, find_output_end c.written c.wrap c.buf (c.width - c.written))
  else if utflen c.buf > c.width then
    let w := c.width - utflen c.ellipsis
    if c.truncate = Truncate.tright then
      let e := find_output_end c.written c.wrap c.buf w
      let kept := c.buf.take e
      let buf1 := if kept.isEmpty then kept else kept ++ c.ellipsis
      (buf1, buf1.length)
    else
      let e := find_output_end c.written c.wrap c.buf.reverse w
      let kept := (c.buf.reverse.take e).reverse
      let buf1 := if kept.isEmpty then kept else c.ellipsis ++ kept
      (buf1, buf1.length)
  else
    (c.buf, c.buf.length)

/-- `draw_fill`: a run of space characters. -/
def draw_fill (n : Nat) : List Nat := List.replicate n 32

/-- The `while (out_width > _width)` walk-back in `cell_info::write_line`:
starting at end offset `j`, repeatedly read the unit at the end iterator, step
the iterator back, and count a code point off `out_width` whenever the rolling
sum returns to zero, until `out_width ≤ width`.  The C++ dereferences the end
iterator before stepping; reading at offset `buf.length` (i.e. `*cend()`) or
stepping the iterator before `begin` is undefined behaviour, modelled as
`none`.  Returns the final end offset and `out_width`. -/
def walkback (width : Nat) (buf : List Nat) : Nat → Int → Nat → Option (Nat × Nat)
  | 0, _, ow => if ow ≤ width then some (0, ow) else none
  | j + 1, sum, ow =>
      if ow ≤ width then some (j + 1, ow)
      else
        match buf.get? (j + 1) with
        | some b =>
            let s := sum + utf_char_score b
            walkback width buf j s (if s = 0 then ow - 1 else ow)
        | _ => none

/-- The left fill of the justification switch in `cell_info::write_line`:
center gets half the remaining fill, right gets all of it. -/
def lfillOf (j : Justify) (total_fill : Nat) : Nat :=
  match j with
  | Justify.center => total_fill / 2
  | Justify.left => 0
  | Justify.right => total_fill

/-- The right fill of the justification switch in `cell_info::write_line`. -/
def rfillOf (j : Justify) (total_fill : Nat) : Nat :=
  match j with
  | Justify.center => total_fill - total_fill / 2
  | Justify.left => total_fill
  | Justify.right => 0

/-- The emission tail of `cell_info::write_line`, from the `_cell_start` check
on: emit left padding and left fill if the cell is starting, drain the buffer
up to the end offset, evaluate the `'\n'` test on the new front (`Option`
read: the C++ reads `_buf.front()` here even when the buffer is empty, which
is undefined behaviour; `none` simply fails the `== '\n'` comparison), drop
one leading whitespace (them all under word wrap), and close the line with
right fill and right padding when a full line was produced.  Returns the
written units, the new cell state, and the `wrote_full` result. -/
def write_line_emit (c : CellInfo) (buf1 : List Nat) (e ow lfill rfill : Nat)
    (wf : Bool) : List Nat × CellInfo × Bool :=
  let out1 := if c.cell_start then c.lpad ++ draw_fill lfill else []
  let drained := buf1.take e
  let buf2 := buf1.drop e
  let wf2 := wf || (buf2.head? = some 10 : Bool)
  let buf3 := match buf2 with
              | b :: rest => if isspace b then rest else buf2
              | _ => buf2
  let buf4 := if c.wrap = Wrap.word then buf3.dropWhile (fun b => isspace b) else buf3
  let wf3 := wf2 || !buf4.isEmpty
  if wf3 then
    (out1 ++ drained ++ draw_fill rfill ++ c.rpad,
     { c with buf := buf4, cell_start := true, written := 0 }, true)
  else
    (out1 ++ drained,
     { c with buf := buf4, cell_start := false, written := ow }, false)

/-- `cell_info::write_line(sbuf, write_full_line)`: emits up to one rendered
line of the cell to the sink and returns the units written, the new cell
state, and the `wrote_full` flag.  `none` models the undefined behaviour of
the walk-back loop dereferencing `*cend()` or stepping before `begin`. -/
def write_line (c : CellInfo) (write_full_line : Bool) :
    Option (List Nat × CellInfo × Bool) :=
  if write_full_line ∨ c.truncate = Truncate.tnone then
    let r := truncate_buf c
    let buf1 := r.1
    let e := r.2
    let ow := utflen (buf1.take e) + c.written
    if ¬write_full_line ∧ ow < c.width ∧ c.justify ≠ Justify.left then
      some ([], { c with buf := buf1 }, write_full_line)
    else if c.width > 0 then
      match walkback c.width buf1 e 0 ow with
      | some (e1, ow1) =>
          let wf := write_full_line || (ow1 = c.width : Bool)
          let total_fill := c.width - ow1
          some (write_line_emit c buf1 e1 ow1 (lfillOf c.justify total_fill)
                  (rfillOf c.justify total_fill) wf)
      | _ => none
    else
      some (write_line_emit c buf1 e ow 0 0 write_full_line)
  else
    some ([], c, write_full_line)

/-- One row of a `style_info`: the left, center, right and line strings. -/
structure StyleRow where
  left : List Nat
  center : List Nat
  right : List Nat
  line : List Nat
deriving DecidableEq, Repr

/-- `basic_tabulator::style_info`: the four border rows. -/
structure StyleInfo where
  top : StyleRow
  middle : StyleRow
  bottom : StyleRow
  cell : StyleRow
deriving DecidableEq, Repr

/-- The `ascii` style: `+` corners and tees, `-` horizontal fill, `|`
vertical separators, no fill on the cell row. -/
def asciiStyle : StyleInfo :=
  { top := { left := [43], center := [43], right := [43], line := [45] },
    middle := { left := [43], center := [43], right := [43], line := [45] },
    bottom := { left := [43], center := [43], right := [43], line := [45] },
    cell := { left := [124], center := [124], right := [124], line := [] } }

/-- State of `basic_tabulator<char>`: the cells, the active write column, the
drain column, the line-start latch, the saved previous streambuf of the host
stream (an opaque reference, modelled as a number), and the style. -/
structure Tabulator where
  cells : List CellInfo
  column : Nat
  sync_column : Nat
  line_start : Bool
  real_sb : Nat
  style : StyleInfo
deriving DecidableEq, Repr

/-- The host output stream, reduced to the one piece of state the tabulator
touches: its streambuf reference. -/
structure OStream where
  rdbuf : Nat
deriving DecidableEq, Repr

/-- The r-value-cell-list constructor of `basic_tabulator`: remembers the
stream's current streambuf in `_real_sb`, initializes `_column`,
`_sync_column` to 0, `_line_start` to `true`, the style to `ascii`, and
installs itself (reference `self`) as the stream's streambuf. -/
def tabulator_construct_rv (os : OStream) (cells : List CellInfo) (self : Nat) :
    Tabulator × OStream :=
  ({ cells := cells, column := 0, sync_column := 0, line_start := true,
     real_sb := os.rdbuf, style := asciiStyle },
   { rdbuf := self })

/-- The l-value-cell-list constructor of `basic_tabulator`: identical to the
r-value overload except that its member-initializer list omits `_line_start`,
leaving that member uninitialized; the indeterminate initial value is the
explicit parameter `junk`. -/
def tabulator_construct_lv (os : OStream) (cells : List CellInfo) (self : Nat)
    (junk : Bool) : Tabulator × OStream :=
  ({ cells := cells, column := 0, sync_column := 0, line_start := junk,
     real_sb := os.rdbuf, style := asciiStyle },
   { rdbuf := self })

/-- The destructor of `basic_tabulator`: its whole body is
`_os.rdbuf(_real_sb)` — restore the saved streambuf.  It writes nothing to
the wrapped sink (second component: the units emitted during destruction). -/
def tabulator_destruct (t : Tabulator) (os : OStream) : OStream × List Nat :=
  ({ os with rdbuf := t.real_sb }, [])

/-- `basic_tabulator::overflow(ch)` over the streambuf int type (modelled as
`Int`, with `char_traits<char>::eof() = -1`): the character is appended to
the active cell when `Traits::not_eof(ch)` is nonzero.  `not_eof(ch)` is
`ch == eof() ? 0 : ch`, so the test is false both for `eof` and for `ch = 0`.
Requires the active column to be in range (`_cells[_column]`). -/
def overflow (t : Tabulator) (ch : Int) : Option Tabulator :=
  let not_eof : Int := if ch = -1 then 0 else ch
  if not_eof ≠ 0 then
    match t.cells.get? t.column with
    | some c => some { t with cells := t.cells.set t.column (putc c ch.toNat) }
    | _ => none
  else
    some t

/-- The `any` helper of `basic_tabulator::flush` over a cell suffix. -/
def anyNonEmpty (cells : List CellInfo) : Bool := cells.any (fun c => !cellEmpty c)

/-- The `more()` condition of `basic_tabulator::flush`. -/
def flushMore (t : Tabulator) (all_cells : Bool) : Bool :=
  ((!all_cells && decide (t.sync_column < t.column)) ||
   (all_cells && decide (t.sync_column > 0))) ||
  anyNonEmpty (if all_cells then t.cells else t.cells.drop t.sync_column)

/-- `draw_column_sep`: the separator string, written when non-empty. -/
def draw_column_sep (vline : List Nat) : List Nat := vline

/-- The loop body plus loop of `basic_tabulator::flush(all_cells)`, with
explicit fuel for the `while (more())` loop; `none` when the fuel runs out,
when a cell index assertion fails, or when `write_line` hits undefined
behaviour.  Returns the drained tabulator state and the units written. -/
def flushLoop : Nat → Tabulator → Bool → Option (Tabulator × List Nat)
  | 0, _, _ => none
  | fuel + 1, t, all_cells =>
      if flushMore t all_cells then
        let out0 := if t.line_start then draw_column_sep t.style.cell.left else []
        let t0 := if t.line_start then { t with line_start := false } else t
        let full0 := all_cells ||
          (decide (t0.sync_column ≠ t0.column) ||
           anyNonEmpty (t0.cells.drop (t0.sync_column + 1)))
        match t0.cells.get? t0.sync_column with
        | some c =>
            match write_line c full0 with
            | some (out1, c1, full1) =>
                let t1 := { t0 with cells := t0.cells.set t0.sync_column c1 }
                if full1 then
                  let last := t1.sync_column + 1 = t1.cells.length
                  let out2 := if last then
                                draw_column_sep t1.style.cell.right ++ [10]
                              else
                                draw_column_sep t1.style.cell.center
                  let t2 := { t1 with
                              line_start := if last then true else t1.line_start,
                              sync_column :=
                                if t1.sync_column + 1 = t1.cells.length then 0
                                else t1.sync_column + 1 }
                  match flushLoop fuel t2 all_cells with
                  | some (t3, out3) => some (t3, out0 ++ out1 ++ out2 ++ out3)
                  | _ => none
                else
                  match flushLoop fuel t1 all_cells with
                  | some (t3, out3) => some (t3, out0 ++ out1 ++ out3)
                  | _ => none
            | _ => none
        | _ => none
      else
        some (t, [])

/-- `basic_tabulator::flush(all_cells)` with the default fuel used by the
concrete scenarios in this development. -/
def flush (t : Tabulator) (all_cells : Bool) : Option (Tabulator × List Nat) :=
  flushLoop 64 t all_cells

/-- `basic_tabulator::next_column`: advance the active column; when it wraps
past the last cell, reset it to 0 and drain the full row. -/
def next_column (t : Tabulator) : Option (Tabulator × List Nat) :=
  let t1 := { t with column := t.column + 1 }
  if t1.column = t1.cells.length then
    flush { t1 with column := 0 } true
  else
    some (t1, [])

/-- The fill loop of `basic_tabulator::draw_segment`: cycle through the code
units of `line`, writing them and counting a column off `width` whenever the
rolling score returns to zero.  The loop has no exit other than `width`
reaching zero, so a `line` that never completes a code point diverges; fuel
models that (`none`). -/
def segmentFill (line : List Nat) : Nat → Nat → Int → Nat → Option (List Nat)
  | _, _, _, 0 => some []
  | 0, _, _, _ => none
  | fuel + 1, i, score, width + 1 =>
      match line.get? i with
      | some b =>
          let s := score + utf_char_score b
          let i1 := if i + 1 = line.length then 0 else i + 1
          match segmentFill line fuel i1 s (if s = 0 then width else width + 1) with
          | some rest => some (b :: rest)
          | _ => none
      | _ => none

/-- `basic_tabulator::draw_segment`: the left edge, then — when the line
string is non-empty — the cell's full width (content plus padding, counted in
code points) of cycled line characters. -/
def draw_segment (c : CellInfo) (left line : List Nat) : Option (List Nat) :=
  if line.isEmpty then some left
  else
    match segmentFill line 1000 0 0 (get_cell_width c) with
    | some fill => some (left ++ fill)
    | _ => none

/-- `basic_tabulator::draw_line(row)`: when a partial row is open
(`_column ≠ 0`), reset the column and force-drain it; then draw the row's
left segment over the first cell, a tee segment per following cell, the right
edge, and a newline.  Requires at least one cell (`_cells.front()`). -/
def draw_line (t : Tabulator) (row : StyleRow) : Option (Tabulator × List Nat) :=
  let pre := if t.column ≠ 0 then flush { t with column := 0 } true
             else some (t, [])
  match pre with
  | some (t1, out1) =>
      match t1.cells with
      | c0 :: rest =>
          let seg0 := draw_segment c0 row.left row.line
          let segs := rest.mapM (fun c => draw_segment c row.center row.line)
          match seg0, segs with
          | some s0, some ss => some (t1, out1 ++ s0 ++ ss.flatten ++ row.right ++ [10])
          | _, _ => none
      | _ => none
  | _ => none

/-- `basic_tabulator::top_line`. -/
def top_line (t : Tabulator) : Option (Tabulator × List Nat) := draw_line t t.style.top

/-- `basic_tabulator::horiz_line`. -/
def horiz_line (t : Tabulator) : Option (Tabulator × List Nat) := draw_line t t.style.middle

/-- `basic_tabulator::bottom_line`. -/
def bottom_line (t : Tabulator) : Option (Tabulator × List Nat) := draw_line t t.style.bottom

/-- Feed a list of characters to the stream one by one; each lands in
`overflow` (the tabulator installs no put area, so every `sputc` reaches
`overflow`). -/
def write_chars (t : Tabulator) : List Nat → Option Tabulator
  | [] => some t
  | ch :: rest =>
      match overflow t (Int.ofNat ch) with
      | some t1 => write_chars t1 rest
      | _ => none

/-- Encoding helper for stating concrete scenarios: the code units of an
ASCII string. -/
def strBytes (s : String) : List Nat := s.data.map Char.toNat

/-- A tabulator over one cell of width 10 with word wrapping, the ascii
style and default one-space padding (the C1 scenario). -/
def tabC1 : Tabulator :=
  (tabulator_construct_rv { rdbuf := 0 } [{ mkCell 10 with wrap := Wrap.word }] 1).1

/-- A tabulator over two zero-width cells with the ascii style and default
one-space padding (the C2 scenario). -/
def tabC2 : Tabulator :=
  (tabulator_construct_rv { rdbuf := 0 } [mkCell 0, mkCell 0] 1).1

/-- The concrete cell state for C9: a zero-width cell whose buffer holds
`"ab"` with no newline. -/
def cellC9 : CellInfo := { mkCell 0 with buf := [97, 98] }

/-- A cell exercising the C3 claim on a lone UTF-8 lead byte: width 5,
right truncation, character wrap, buffer `[0xC3]`. -/
def cellC3a : CellInfo := { mkCell 5 with truncate := Truncate.tright, buf := [0xC3] }

/-- A cell exercising the C3 claim under word wrap: width 5, right
truncation, word wrap, buffer `"abcdefgh"` (no whitespace). -/
def cellC3b : CellInfo :=
  { mkCell 5 with
    truncate := Truncate.tright
    wrap := Wrap.word
    buf := strBytes "abcdefgh" }

/-- A truncating cell used as the concrete witness of the amended C3 claim:
width 5, right truncation, character wrap, buffer `"abc"`. -/
def cellC3w : CellInfo := { mkCell 5 with truncate := Truncate.tright, buf := [97, 98, 99] }

/-- A buffer chunk that the scanning loops treat as one code point: a valid
UTF-8 code point or the reversal of one (the cell code scans the buffer both
forwards and backwards). -/
def chunkOK (u : List Nat) : Prop :=
  ∃ v, validCP v = true ∧ (u = v ∨ u = v.reverse)

/-- The number of whole chunks `find_line_end` consumes from a chunk list
under a code-point budget: it stops at the budget or at a `"\n"` chunk. -/
def chunksTaken : Nat → List (List Nat) → Nat
  | 0, _ => 0
  | _ + 1, [] => 0
  | n + 1, u :: rest => if u = [10] then 0 else 1 + chunksTaken n rest

/-- C1: on a tabulator with a single cell of width 10, wrap=word, ascii
style and default one-space padding, writing the thirteen characters
`"abcdef ghijkl"` and then advancing the column sends exactly the two
rendered lines `"| abcdef     |\n| ghijkl     |\n"` to the wrapped sink. -/
theorem tabulator_word_wrap_width10_renders_two_lines :
    ((write_chars tabC1 (strBytes "abcdef ghijkl")).bind next_column).map Prod.snd
      = some (strBytes "| abcdef     |\n| ghijkl     |\n") := by decide

/-- C2: with two zero-width cells, default one-space padding and the ascii
style, `top_line`, `horiz_line` and `bottom_line` each emit exactly
`"+--+--+\n"`, and writing `'\n'` followed by two column advances emits
exactly the empty row `"|  |  |\n"`. -/
theorem tabulator_ascii_two_zero_width_cells_borders_and_empty_row :
    (top_line tabC2).map Prod.snd = some (strBytes "+--+--+\n") ∧
    (horiz_line tabC2).map Prod.snd = some (strBytes "+--+--+\n") ∧
    (bottom_line tabC2).map Prod.snd = some (strBytes "+--+--+\n") ∧
    ((write_chars tabC2 [10]).bind next_column).bind
        (fun r => (next_column r.1).map (fun r2 => r.2 ++ r2.2))
      = some (strBytes "|  |  |\n") := by
  refine ⟨by decide, by decide, by decide, by decide⟩

/-- C5 counterexample: the character value 0 is not the EOF sentinel (−1),
yet `overflow` does not append it — the buffer of the active cell stays
empty and the state is unchanged, because `Traits::not_eof(0) = 0` is used
as a boolean.  This falsifies the claim that every non-EOF character written
to the stream reaches the active cell's buffer. -/
theorem overflow_drops_nul_counterexample :
    (0 : Int) ≠ -1 ∧
    overflow tabC1 0 = some tabC1 ∧
    (tabC1.cells.get? 0).map CellInfo.buf = some [] := by
  refine ⟨by decide, by decide, by decide⟩

/-- C5 (amended): `overflow(ch)` appends the character to the buffer of the
active cell `cells[col]` for every `ch` that is neither the EOF sentinel −1
nor 0 (0 is also dropped, since the code tests `not_eof(ch)` as a boolean);
the active column index is never changed by `overflow`, and EOF and 0 leave
the state unchanged. -/
theorem overflow_appends_nonzero_non_eof (t : Tabulator) (ch : Int) (c : CellInfo)
    (h1 : ch ≠ -1) (h2 : ch ≠ 0) (h3 : t.cells.get? t.column = some c) :
    overflow t ch = some { t with cells := t.cells.set t.column (putc c ch.toNat) } ∧
    (∀ t', overflow t ch = some t' → t'.column = t.column) ∧
    overflow t 0 = some t ∧ overflow t (-1) = some t := by
  have hne : (if ch = -1 then (0 : Int) else ch) ≠ 0 := by
    rw [if_neg h1]; exact h2
  constructor
  · simp only [overflow, hne, if_pos, ne_eq, not_false_iff, if_true, h3]
  constructor
  · intro t' ht'
    simp only [overflow, hne, ne_eq, not_false_iff, if_true, h3] at ht'
    cases ht'
    rfl
  constructor
  · simp [overflow]
  · simp [overflow]

/-- C5 amended-claim witness: the theorem applied at a concrete state and
character (65 into the fresh single-cell tabulator). -/
theorem overflow_appends_nonzero_non_eof_witness :
    tabC1.cells.get? tabC1.column = some { mkCell 10 with wrap := Wrap.word } ∧
    overflow tabC1 65 = some { tabC1 with
      cells := tabC1.cells.set tabC1.column
        (putc { mkCell 10 with wrap := Wrap.word } (Int.toNat 65)) } :=
  ⟨by decide,
   (overflow_appends_nonzero_non_eof tabC1 65 { mkCell 10 with wrap := Wrap.word }
      (by decide) (by decide) (by decide)).1⟩

/-- C6: for every output stream, every cell list and either constructor
overload, constructing a tabulator on the stream and then destroying it
restores the stream's sink reference to exactly the value held immediately
before construction. -/
theorem tabulator_destruct_restores_rdbuf (os : OStream) (cells : List CellInfo)
    (self : Nat) (junk : Bool) :
    ((tabulator_destruct (tabulator_construct_rv os cells self).1
        (tabulator_construct_rv os cells self).2).1).rdbuf = os.rdbuf ∧
    ((tabulator_destruct (tabulator_construct_lv os cells self junk).1
        (tabulator_construct_lv os cells self junk).2).1).rdbuf = os.rdbuf :=
  ⟨rfl, rfl⟩

/-- C7 counterexample: a tabulator whose single cell buffers the pending
byte `'a'` (a partial row is pending), yet destruction writes nothing to the
wrapped sink — the buffered content remains unwritten.  This falsifies the
claim that the destructor drains the pending row. -/
theorem destructor_does_not_drain_counterexample :
    (({ tabC1 with cells := [{ mkCell 10 with wrap := Wrap.word, buf := [97] }] }).cells.get? 0).map
        CellInfo.buf = some [97] ∧
    (tabulator_destruct { tabC1 with
        cells := [{ mkCell 10 with wrap := Wrap.word, buf := [97] }] } { rdbuf := 1 }).2 = [] := by
  refine ⟨by decide, by decide⟩

/-- C7 (amended): the destructor does not drain a pending partial row; its
only effect is to restore the previously saved sink to the host stream, and
it emits nothing.  Pending buffered cell content is discarded, and — the
specification's minimum guarantee — no tabulator output follows destruction,
so subsequent writes to the restored stream are not interleaved with
tabulator output. -/
theorem destructor_emits_nothing_restores_sink (t : Tabulator) (os : OStream) :
    (tabulator_destruct t os).2 = [] ∧
    ((tabulator_destruct t os).1).rdbuf = t.real_sb :=
  ⟨rfl, rfl⟩

/-- C8 counterexample: on a freshly constructed cell (width 0, default
one-code-point ellipsis), `set_width(1)` passes its assertion (it checks the
width held on entry, which is 0) and returns normally, yet immediately after
it returns the invariant `width == 0 ∨ width > utflen(ellipsis)` is false.
This falsifies the claim that the setters detect a violating configuration
at setter time. -/
theorem setters_precheck_counterexample :
    set_width (mkCell 0) 1 = some { mkCell 0 with width := 1 } ∧
    ¬ widthEllipsisInv { mkCell 0 with width := 1 } := by
  refine ⟨by decide, by decide⟩

/-- C8 (amended): `set_width`, `set_truncate` and `set_ellipsis` assert the
width-vs-ellipsis invariant over the values held on entry — `set_width` even
with `≥` instead of `>` — and then apply the new value, so a call that
violates the invariant returns normally; the violation is only detected
(abort, modelled as `none`) by the next `set_truncate`/`set_ellipsis` call. -/
theorem setters_assert_prestate_invariant (c c' : CellInfo) (w : Nat)
    (h : set_width c w = some c') :
    (c.width = 0 ∨ c.width ≥ utflen c.ellipsis) ∧
    c'.width = w ∧ c'.ellipsis = c.ellipsis ∧
    (¬ widthEllipsisInv c' →
      ∀ t e, set_truncate c' t = none ∧ set_ellipsis c' e = none) := by
  by_cases hpre : c.width = 0 ∨ c.width ≥ utflen c.ellipsis
  · rw [set_width, if_pos hpre] at h
    cases h
    refine ⟨hpre, rfl, rfl, ?_⟩
    intro hviol t e
    rw [set_truncate, set_ellipsis]
    rw [widthEllipsisInv] at hviol
    exact ⟨if_neg hviol, if_neg hviol⟩
  · rw [set_width, if_neg hpre] at h
    cases h

/-- C8 amended-claim witness: the theorem applied to the successful but
invariant-breaking `set_width(1)` call on a default cell. -/
theorem setters_assert_prestate_invariant_witness :
    set_width (mkCell 0) 1 = some { mkCell 0 with width := 1 } ∧
    ((mkCell 0).width = 0 ∨ (mkCell 0).width ≥ utflen (mkCell 0).ellipsis) :=
  ⟨by decide,
   (setters_assert_prestate_invariant (mkCell 0) { mkCell 0 with width := 1 } 1 (by decide)).1⟩

/-- C9: in `cell_info::write_line`, the read of `_buf.front()` for the
newline test happens after the buffer has been drained up to the end offset
computed by `truncate_buf`; for a zero-width cell whose buffer holds no
newline that offset is the whole buffer, so at the read the buffer is empty
and the total embedding's `Option` front is `none` — the claimed-unreachable
branch is reached (the call itself is exercised with
`write_full_line = true`, as `flush` does on a row close). -/
theorem write_line_front_read_on_empty_buffer :
    ((truncate_buf cellC9).1.drop (truncate_buf cellC9).2).head? = none ∧
    write_line cellC9 true =
      some (strBytes " ab ", { cellC9 with buf := [], cell_start := true }, true) := by
  refine ⟨by decide, by decide⟩

/-- C10: the r-value-cell-list constructor initializes the `_line_start`
latch to `true`, but the l-value overload omits `_line_start` from its
member-initializer list, so the latch holds an indeterminate value; with the
indeterminate memory at `false` the latch is `false` after construction and
the first rendered line would not be preceded by the style's cell-left
border. -/
theorem lvalue_ctor_line_start_uninitialized :
    ((tabulator_construct_rv { rdbuf := 0 } [mkCell 0] 1).1).line_start = true ∧
    ((tabulator_construct_lv { rdbuf := 0 } [mkCell 0] 1 false).1).line_start = false :=
  ⟨rfl, rfl⟩

/-- The score of every ASCII byte is 0. -/
theorem score_ascii : ∀ b : Nat, b < 0x80 → utf_char_score b = 0 := by decide

/-- The score of every UTF-8 continuation byte is −1. -/
theorem score_cont : ∀ b : Nat, b < 0xC0 → 0x80 ≤ b → utf_char_score b = -1 := by decide

/-- The score of every 2-byte lead is 1. -/
theorem score_lead2 : ∀ b : Nat, b < 0xE0 → 0xC0 ≤ b → utf_char_score b = 1 := by decide

/-- The score of every 3-byte lead is 2. -/
theorem score_lead3 : ∀ b : Nat, b < 0xF0 → 0xE0 ≤ b → utf_char_score b = 2 := by decide

/-- The score of every 4-byte lead is 3. -/
theorem score_lead4 : ∀ b : Nat, b < 0xF8 → 0xF0 ≤ b → utf_char_score b = 3 := by decide

/-- Every valid code point is an acceptable chunk. -/
theorem chunkOK_of_valid (v : List Nat) (h : validCP v = true) : chunkOK v :=
  ⟨v, h, Or.inl rfl⟩

/-- Chunks are closed under reversal. -/
theorem chunkOK_reverse (u : List Nat) (h : chunkOK u) : chunkOK u.reverse := by
  obtain ⟨v, hv, h1 | h1⟩ := h
  · exact ⟨v, hv, Or.inr (by rw [h1])⟩
  · exact ⟨v, hv, Or.inl (by rw [h1, List.reverse_reverse])⟩

/-- Walking `utflenAux` through one chunk from a zero running sum counts
exactly one code point and returns the sum to zero. -/
theorem utflenAux_chunk (u B : List Nat) (h : chunkOK u) :
    utflenAux 0 (u ++ B) = 1 + utflenAux 0 B := by
  obtain ⟨v, hv, hor⟩ := h
  rcases v with _ | ⟨b1, _ | ⟨b2, _ | ⟨b3, _ | ⟨b4, _ | rest⟩⟩⟩⟩
  · simp [validCP] at hv
  · simp only [validCP, decide_eq_true_eq] at hv
    have s1 := score_ascii b1 hv
    rcases hor with h1 | h1 <;> subst h1 <;>
      simp [utflenAux, s1]
  · simp only [validCP, isCont, decide_eq_true_eq] at hv
    have s1 := score_lead2 b1 hv.1.2 hv.1.1
    have s2 := score_cont b2 hv.2.2 hv.2.1
    rcases hor with h1 | h1 <;> subst h1 <;>
      norm_num [utflenAux, s1, s2]
  · simp only [validCP, isCont, decide_eq_true_eq] at hv
    have s1 := score_lead3 b1 hv.1.2 hv.1.1
    have s2 := score_cont b2 hv.2.1.2 hv.2.1.1
    have s3 := score_cont b3 hv.2.2.2 hv.2.2.1
    rcases hor with h1 | h1 <;> subst h1 <;>
      norm_num [utflenAux, s1, s2, s3]
  · simp only [validCP, isCont, decide_eq_true_eq] at hv
    have s1 := score_lead4 b1 hv.1.2 hv.1.1
    have s2 := score_cont b2 hv.2.1.2 hv.2.1.1
    have s3 := score_cont b3 hv.2.2.1.2 hv.2.2.1.1
    have s4 := score_cont b4 hv.2.2.2.2 hv.2.2.2.1
    rcases hor with h1 | h1 <;> subst h1 <;>
      norm_num [utflenAux, s1, s2, s3, s4]
  · simp [validCP] at hv

/-- `utflenAux` over a concatenation of chunks counts the chunks. -/
theorem utflenAux_flatten_chunks (K : List (List Nat)) (B : List Nat)
    (h : ∀ u ∈ K, chunkOK u) :
    utflenAux 0 (K.flatten ++ B) = K.length + utflenAux 0 B := by
  induction K with
  | nil => simp
  | cons u rest ih =>
      rw [List.flatten_cons, List.append_assoc, utflenAux_chunk u _ (h u (by simp)),
        ih (fun v hv => h v (by simp [hv]))]
      simp [Nat.add_comm, Nat.add_assoc, Nat.add_left_comm]

/-- `utflen` of a concatenation of chunks is the number of chunks. -/
theorem utflen_flatten_chunks (K : List (List Nat)) (h : ∀ u ∈ K, chunkOK u) :
    utflen K.flatten = K.length := by
  have h0 := utflenAux_flatten_chunks K [] h
  simpa [utflen, utflenAux] using h0

/-- `utflenAux` through a run of spaces counts one per space. -/
theorem utflenAux_fill (n : Nat) (B : List Nat) :
    utflenAux 0 (draw_fill n ++ B) = n + utflenAux 0 B := by
  induction n with
  | zero => simp [draw_fill]
  | succ m ih =>
      have s := score_ascii 32 (by norm_num)
      rw [draw_fill, List.replicate_succ]
      show utflenAux 0 (32 :: (draw_fill m ++ B)) = (m + 1) + utflenAux 0 B
      norm_num [utflenAux, s]
      rw [ih]
      omega

/-- `find_line_end` with an exhausted budget consumes nothing. -/
theorem fle_width_zero (l : List Nat) (cbr : Int) : find_line_end cbr 0 l = 0 := by
  cases l <;> simp [find_line_end]

/-- `find_line_end` stops at a newline that completes a code point. -/
theorem fle_nl (B : List Nat) (n : Nat) (hn : n ≠ 0) :
    find_line_end 0 n (10 :: B) = 0 := by
  have s := score_ascii 10 (by norm_num)
  simp [find_line_end, hn, s]

/-- `find_line_end` walks through one non-newline chunk whole, spending one
unit of budget. -/
theorem fle_chunk (u B : List Nat) (n : Nat) (h : chunkOK u) (h10 : u ≠ [10])
    (hn : n ≠ 0) :
    find_line_end 0 n (u ++ B) = u.length + find_line_end 0 (n - 1) B := by
  obtain ⟨v, hv, hor⟩ := h
  rcases v with _ | ⟨b1, _ | ⟨b2, _ | ⟨b3, _ | ⟨b4, _ | rest⟩⟩⟩⟩
  · simp [validCP] at hv
  · simp only [validCP, decide_eq_true_eq] at hv
    have s1 := score_ascii b1 hv
    have hb : b1 ≠ 10 := by
      intro hb; rcases hor with h1 | h1 <;> simp [hb, h1] at h10
    rcases hor with h1 | h1 <;> subst h1 <;>
      simp [find_line_end, hn, s1, hb]
  · simp only [validCP, isCont, decide_eq_true_eq] at hv
    have s1 := score_lead2 b1 hv.1.2 hv.1.1
    have s2 := score_cont b2 hv.2.2 hv.2.1
    have hb1 : b1 ≠ 10 := by omega
    have hb2 : b2 ≠ 10 := by omega
    rcases hor with h1 | h1 <;> subst h1 <;>
      norm_num [find_line_end, hn, s1, s2, hb1, hb2] <;> omega
  · simp only [validCP, isCont, decide_eq_true_eq] at hv
    have s1 := score_lead3 b1 hv.1.2 hv.1.1
    have s2 := score_cont b2 hv.2.1.2 hv.2.1.1
    have s3 := score_cont b3 hv.2.2.2 hv.2.2.1
    have hb1 : b1 ≠ 10 := by omega
    have hb2 : b2 ≠ 10 := by omega
    have hb3 : b3 ≠ 10 := by omega
    rcases hor with h1 | h1 <;> subst h1 <;>
      norm_num [find_line_end, hn, s1, s2, s3, hb1, hb2, hb3] <;> omega
  · simp only [validCP, isCont, decide_eq_true_eq] at hv
    have s1 := score_lead4 b1 hv.1.2 hv.1.1
    have s2 := score_cont b2 hv.2.1.2 hv.2.1.1
    have s3 := score_cont b3 hv.2.2.1.2 hv.2.2.1.1
    have s4 := score_cont b4 hv.2.2.2.2 hv.2.2.2.1
    have hb1 : b1 ≠ 10 := by omega
    have hb2 : b2 ≠ 10 := by omega
    have hb3 : b3 ≠ 10 := by omega
    have hb4 : b4 ≠ 10 := by omega
    rcases hor with h1 | h1 <;> subst h1 <;>
      norm_num [find_line_end, hn, s1, s2, s3, s4, hb1, hb2, hb3, hb4] <;> omega
  · simp [validCP] at hv

/-- The chunks consumed never exceed the budget. -/
theorem chunksTaken_le_budget (n : Nat) (K : List (List Nat)) :
    chunksTaken n K ≤ n := by
  induction K generalizing n with
  | nil => cases n <;> simp [chunksTaken]
  | cons u rest ih =>
      cases n with
      | zero => simp [chunksTaken]
      | succ m =>
          simp only [chunksTaken]
          split
          · omega
          · have := ih m
            omega

/-- The chunks consumed never exceed the chunk count. -/
theorem chunksTaken_le_length (n : Nat) (K : List (List Nat)) :
    chunksTaken n K ≤ K.length := by
  induction K generalizing n with
  | nil => cases n <;> simp [chunksTaken]
  | cons u rest ih =>
      cases n with
      | zero => simp [chunksTaken]
      | succ m =>
          simp only [chunksTaken, List.length_cons]
          split
          · omega
          · have := ih m
            omega

/-- `find_line_end` over a concatenation of chunks returns the code-unit
length of the whole chunks consumed under the budget. -/
theorem fle_flatten_chunks (K : List (List Nat)) (n : Nat)
    (h : ∀ u ∈ K, chunkOK u) :
    find_line_end 0 n K.flatten = ((K.take (chunksTaken n K)).flatten).length := by
  induction K generalizing n with
  | nil => cases n <;> simp [chunksTaken, find_line_end]
  | cons u rest ih =>
      cases n with
      | zero => simp [chunksTaken, fle_width_zero]
      | succ m =>
          by_cases h10 : u = [10]
          · subst h10
            rw [List.flatten_cons]
            show find_line_end 0 (m + 1) (10 :: rest.flatten) = _
            rw [fle_nl _ _ (by omega)]
            simp [chunksTaken]
          · rw [List.flatten_cons, fle_chunk u _ (m + 1) (h u (by simp)) h10 (by omega)]
            simp only [chunksTaken, h10, if_false, Nat.add_sub_cancel]
            rw [ih m (fun v hv => h v (by simp [hv]))]
            simp [List.take_cons, List.flatten_cons]

/-- The walk-back loop of `write_line` exits immediately when the width is
already within bounds. -/
theorem walkback_skip (w : Nat) (buf : List Nat) (j : Nat) (s : Int) (ow : Nat)
    (h : ow ≤ w) : walkback w buf j s ow = some (j, ow) := by
  cases j <;> simp [walkback, h]

/-- Taking a flattened chunk-prefix's length out of the flattening recovers
the prefix. -/
theorem flatten_take_prefix (K : List (List Nat)) (m : Nat) :
    K.flatten.take ((K.take m).flatten).length = (K.take m).flatten := by
  have h : K.flatten = (K.take m).flatten ++ (K.drop m).flatten := by
    rw [← List.flatten_append, List.take_append_drop]
  rw [h, List.take_left]

/-- C4: for every valid UTF-encoded code-unit sequence, `utflen` returns the
number of complete code points, counting each multi-unit sequence as one
(it increments its counter exactly when the rolling `utf_char_score` sum
returns to zero, which happens once per valid code point); and for 32-bit
code units `utflen` is the number of units in the sequence. -/
theorem utflen_counts_codepoints :
    (∀ cps : List (List Nat), validSeq cps = true → utflen cps.flatten = cps.length) ∧
    (∀ l : List Nat, utflen32 l = l.length) := by
  constructor
  · intro cps hv
    apply utflen_flatten_chunks
    intro u hu
    exact chunkOK_of_valid u (by
      have := List.all_eq_true.mp hv u hu
      simpa using this)
  · intro l
    induction l with
    | nil => rfl
    | cons b rest ih => simp [utflen32, ih]; omega

/-- C4 witness: the sequence `"$€"` (`0x24`, then the three-byte
`0xE2 0x82 0xAC`) has two code points, and the 32-bit count of a three-unit
sequence is three. -/
theorem utflen_counts_codepoints_witness :
    validSeq [[0x24], [0xE2, 0x82, 0xAC]] = true ∧
    utflen [0x24, 0xE2, 0x82, 0xAC] = 2 ∧
    utflen32 [36, 8364, 65] = 3 := by
  refine ⟨by decide, ?_, utflen_counts_codepoints.2 [36, 8364, 65]⟩
  exact utflen_counts_codepoints.1 [[0x24], [0xE2, 0x82, 0xAC]] (by decide)

/-- `validSeq` membership gives chunks. -/
theorem chunks_of_validSeq (cps : List (List Nat)) (hv : validSeq cps = true) :
    ∀ u ∈ cps, chunkOK u := by
  intro u hu
  exact chunkOK_of_valid u (by simpa using List.all_eq_true.mp hv u hu)

/-- For a truncating cell of nonzero width, character wrap, nothing written
yet, a valid-UTF-8 buffer and a valid ellipsis shorter than the width,
`truncate_buf` leaves a buffer that is a concatenation of at most `width`
chunks and an end offset covering all of it. -/
theorem truncate_buf_spec (c : CellInfo) (cps ecps : List (List Nat))
    (hbuf : c.buf = cps.flatten) (hv : validSeq cps = true)
    (he : c.ellipsis = ecps.flatten) (hev : validSeq ecps = true)
    (ht : c.truncate ≠ Truncate.tnone) (hw : 0 < c.width)
    (hwr : c.wrap = Wrap.character) (_hz : c.written = 0)
    (hinv : utflen c.ellipsis < c.width) :
    ∃ K : List (List Nat), (∀ u ∈ K, chunkOK u) ∧
      truncate_buf c = (K.flatten, K.flatten.length) ∧ K.length ≤ c.width := by
  have hcpsOK := chunks_of_validSeq cps hv
  have hecpsOK := chunks_of_validSeq ecps hev
  have heCnt : utflen c.ellipsis = ecps.length := by
    rw [he]; exact utflen_flatten_chunks _ hecpsOK
  have hw0 : ¬ c.width = 0 := by omega
  by_cases hbig : utflen c.buf > c.width
  · by_cases htr : c.truncate = Truncate.tright
    · -- right truncation
      have hkept : c.buf.take
            (find_output_end c.written c.wrap c.buf (c.width - utflen c.ellipsis))
          = (cps.take (chunksTaken (c.width - utflen c.ellipsis) cps)).flatten := by
        have hfoe : find_output_end c.written c.wrap c.buf (c.width - utflen c.ellipsis)
            = find_line_end 0 (c.width - utflen c.ellipsis) c.buf := by
          rw [hwr]; rfl
        have hfle : find_line_end 0 (c.width - utflen c.ellipsis) c.buf
            = ((cps.take (chunksTaken (c.width - utflen c.ellipsis) cps)).flatten).length := by
          rw [hbuf]; exact fle_flatten_chunks cps _ hcpsOK
        rw [hfoe, hfle, hbuf]
        exact flatten_take_prefix cps _
      have hm : chunksTaken (c.width - utflen c.ellipsis) cps ≤ c.width - utflen c.ellipsis :=
        chunksTaken_le_budget _ _
      have htb : truncate_buf c =
          (if ((cps.take (chunksTaken (c.width - utflen c.ellipsis) cps)).flatten).isEmpty
           then ((cps.take (chunksTaken (c.width - utflen c.ellipsis) cps)).flatten)
           else ((cps.take (chunksTaken (c.width - utflen c.ellipsis) cps)).flatten
                  ++ c.ellipsis),
           (if ((cps.take (chunksTaken (c.width - utflen c.ellipsis) cps)).flatten).isEmpty
            then ((cps.take (chunksTaken (c.width - utflen c.ellipsis) cps)).flatten)
            else ((cps.take (chunksTaken (c.width - utflen c.ellipsis) cps)).flatten
                   ++ c.ellipsis)).length) := by
        unfold truncate_buf
        rw [if_neg hw0, if_neg ht, if_pos hbig, if_pos htr]
        simp only [hkept]
      by_cases hkemp :
          ((cps.take (chunksTaken (c.width - utflen c.ellipsis) cps)).flatten).isEmpty = true
      · refine ⟨[], by simp, ?_, by simp⟩
        rw [htb, if_pos hkemp]
        rw [List.isEmpty_iff.mp hkemp]
        rfl
      · refine ⟨cps.take (chunksTaken (c.width - utflen c.ellipsis) cps) ++ ecps, ?_, ?_, ?_⟩
        · intro u hu
          rcases List.mem_append.mp hu with h1 | h1
          · exact hcpsOK u (List.mem_of_mem_take h1)
          · exact hecpsOK u h1
        · rw [htb, if_neg hkemp, List.flatten_append, he]
        · have hlt : (cps.take (chunksTaken (c.width - utflen c.ellipsis) cps)).length
              ≤ chunksTaken (c.width - utflen c.ellipsis) cps := by
            rw [List.length_take]; omega
          rw [List.length_append]
          omega
    · -- left truncation
      have hRKOK : ∀ u ∈ (cps.map List.reverse).reverse, chunkOK u := by
        intro u hu
        rw [List.mem_reverse, List.mem_map] at hu
        obtain ⟨v, hv1, hv2⟩ := hu
        rw [← hv2]
        exact chunkOK_reverse v (hcpsOK v hv1)
      have hkeptrev : c.buf.reverse.take
            (find_output_end c.written c.wrap c.buf.reverse (c.width - utflen c.ellipsis))
          = (((cps.map List.reverse).reverse).take
              (chunksTaken (c.width - utflen c.ellipsis)
                ((cps.map List.reverse).reverse))).flatten := by
        have hrev : c.buf.reverse = ((cps.map List.reverse).reverse).flatten := by
          rw [hbuf, List.reverse_flatten]
        have hfoe : find_output_end c.written c.wrap c.buf.reverse
              (c.width - utflen c.ellipsis)
            = find_line_end 0 (c.width - utflen c.ellipsis) c.buf.reverse := by
          rw [hwr]; rfl
        have hfle : find_line_end 0 (c.width - utflen c.ellipsis) c.buf.reverse
            = ((((cps.map List.reverse).reverse).take
                  (chunksTaken (c.width - utflen c.ellipsis)
                    ((cps.map List.reverse).reverse))).flatten).length := by
          rw [hrev]; exact fle_flatten_chunks _ _ hRKOK
        rw [hfoe, hfle, hrev]
        exact flatten_take_prefix _ _
      have hkept : (c.buf.reverse.take
            (find_output_end c.written c.wrap c.buf.reverse
              (c.width - utflen c.ellipsis))).reverse
          = (((((cps.map List.reverse).reverse).take
                (chunksTaken (c.width - utflen c.ellipsis)
                  ((cps.map List.reverse).reverse))).map List.reverse).reverse).flatten := by
        rw [hkeptrev, List.reverse_flatten]
      have hm : chunksTaken (c.width - utflen c.ellipsis) ((cps.map List.reverse).reverse)
          ≤ c.width - utflen c.ellipsis := chunksTaken_le_budget _ _
      have htb : truncate_buf c =
          (if ((c.buf.reverse.take
                (find_output_end c.written c.wrap c.buf.reverse
                  (c.width - utflen c.ellipsis))).reverse).isEmpty
           then (c.buf.reverse.take
                (find_output_end c.written c.wrap c.buf.reverse
                  (c.width - utflen c.ellipsis))).reverse
           else c.ellipsis ++ (c.buf.reverse.take
                (find_output_end c.written c.wrap c.buf.reverse
                  (c.width - utflen c.ellipsis))).reverse,
           (if ((c.buf.reverse.take
                (find_output_end c.written c.wrap c.buf.reverse
                  (c.width - utflen c.ellipsis))).reverse).isEmpty
            then (c.buf.reverse.take
                (find_output_end c.written c.wrap c.buf.reverse
                  (c.width - utflen c.ellipsis))).reverse
            else c.ellipsis ++ (c.buf.reverse.take
                (find_output_end c.written c.wrap c.buf.reverse
                  (c.width - utflen c.ellipsis))).reverse).length) := by
        unfold truncate_buf
        rw [if_neg hw0, if_neg ht, if_pos hbig, if_neg htr]
      by_cases hkemp : ((c.buf.reverse.take
            (find_output_end c.written c.wrap c.buf.reverse
              (c.width - utflen c.ellipsis))).reverse).isEmpty = true
      · refine ⟨[], by simp, ?_, by simp⟩
        rw [htb, if_pos hkemp]
        rw [List.isEmpty_iff.mp hkemp]
        rfl
      · refine ⟨ecps ++ ((((cps.map List.reverse).reverse).take
              (chunksTaken (c.width - utflen c.ellipsis)
                ((cps.map List.reverse).reverse))).map List.reverse).reverse, ?_, ?_, ?_⟩
        · intro u hu
          rcases List.mem_append.mp hu with h1 | h1
          · exact hecpsOK u h1
          · rw [List.mem_reverse, List.mem_map] at h1
            obtain ⟨v, hv1, hv2⟩ := h1
            rw [← hv2]
            exact chunkOK_reverse v (hRKOK v (List.mem_of_mem_take hv1))
        · rw [htb, if_neg hkemp, hkept, List.flatten_append, he]
        · rw [List.length_append, List.length_reverse, List.length_map, List.length_take]
          omega
  · refine ⟨cps, hcpsOK, ?_, ?_⟩
    · unfold truncate_buf
      rw [if_neg hw0, if_neg ht, if_neg hbig, hbuf]
    · have hcnt : utflen c.buf = cps.length := by
        rw [hbuf]; exact utflen_flatten_chunks _ hcpsOK
      omega

/-- Evaluation of `write_line` on a forced row close when `truncate_buf`
leaves a drainable buffer `bl` (end offset covering all of it) that fits the
width: the whole buffer is drained between the paddings and the two
justification fills, the line closes, and the cell resets. -/
theorem write_line_full_eval (c : CellInfo) (bl : List Nat)
    (htb : truncate_buf c = (bl, bl.length))
    (hw : 0 < c.width) (hcs : c.cell_start = true) (hwr : c.wrap = Wrap.character)
    (how : utflen bl + c.written ≤ c.width) :
    write_line c true = some
      (c.lpad ++ (draw_fill (lfillOf c.justify (c.width - (utflen bl + c.written))) ++ bl ++
        draw_fill (rfillOf c.justify (c.width - (utflen bl + c.written)))) ++ c.rpad,
       { c with buf := [], cell_start := true, written := 0 }, true) := by
  have hwb := walkback_skip c.width bl bl.length 0 (utflen bl + c.written) how
  simp only [write_line, htb, List.take_length, hwb, write_line_emit, List.drop_length,
    hcs, hwr, if_true, ite_true, Bool.true_or, not_true, false_and, if_false, ite_false,
    List.head?_nil, List.append_assoc, true_or, hw, gt_iff_lt, if_pos]
  simp [hw]

/-- C3 counterexample: both conjuncts of the claim fail on concrete cells
with `truncate ≠ none` and width 5.  On the buffered input `[0xC3]` (a lone
UTF-8 lead byte) the row close succeeds but the content between the one-byte
paddings — `0xC3` followed by the five fill spaces — counts 0 code points
rather than 5, because the dangling lead byte never completes and absorbs
the spaces' score returns.  Under word wrap on the input `"abcdefgh"` the
walk-back loop of `write_line` dereferences the buffer's end iterator
(undefined behaviour, `none` in the embedding), so no rendered line is
emitted at all. -/
theorem truncate_cell_width_count_counterexample :
    cellC3a.truncate ≠ Truncate.tnone ∧ cellC3a.width = 5 ∧
    write_line cellC3a true =
      some ([32, 0xC3, 32, 32, 32, 32, 32, 32],
            { cellC3a with buf := [], cell_start := true, written := 0 }, true) ∧
    [32, 0xC3, 32, 32, 32, 32, 32, 32] =
      cellC3a.lpad ++ ([0xC3, 32, 32, 32, 32, 32] ++ cellC3a.rpad) ∧
    utflen [0xC3, 32, 32, 32, 32, 32] = 0 ∧
    cellC3b.truncate ≠ Truncate.tnone ∧ cellC3b.width = 5 ∧
    write_line cellC3b true = none := by
  refine ⟨by decide, by decide, by decide, by decide, by decide, by decide, by decide,
    by decide⟩

/-- C3 (amended): for every cell whose truncate policy is not `none`, whose
width `w` is nonzero, whose wrap policy is `character`, whose buffered input
is a valid UTF-8 code-unit sequence, whose ellipsis is valid UTF-8 with
fewer than `w` code points (the asserted configuration invariant), and which
is at a fresh line (`cell_start` set, `written = 0`, the invariant state of
a truncating cell, which never emits partial lines), a row close
(`write_line` with `write_full_line = true`) emits exactly one rendered line
for the cell — the call returns `true` — and the content of that line
between the left and right padding consists of exactly `w` code points. -/
theorem truncate_cell_row_close_single_line_width (c : CellInfo)
    (cps ecps : List (List Nat))
    (hbuf : c.buf = cps.flatten) (hv : validSeq cps = true)
    (he : c.ellipsis = ecps.flatten) (hev : validSeq ecps = true)
    (ht : c.truncate ≠ Truncate.tnone) (hw : 0 < c.width)
    (hwr : c.wrap = Wrap.character) (hcs : c.cell_start = true) (hz : c.written = 0)
    (hinv : utflen c.ellipsis < c.width) :
    ∃ mid c1, write_line c true = some (c.lpad ++ mid ++ c.rpad, c1, true) ∧
      utflen mid = c.width := by
  obtain ⟨K, hK, htb, hKlen⟩ :=
    truncate_buf_spec c cps ecps hbuf hv he hev ht hw hwr hz hinv
  have hcount : utflen K.flatten = K.length := utflen_flatten_chunks K hK
  have how : utflen K.flatten + c.written ≤ c.width := by rw [hcount, hz]; omega
  have htb2 : truncate_buf c = (K.flatten, K.flatten.length) := htb
  refine ⟨draw_fill (lfillOf c.justify (c.width - (utflen K.flatten + c.written)))
      ++ K.flatten
      ++ draw_fill (rfillOf c.justify (c.width - (utflen K.flatten + c.written))),
    { c with buf := [], cell_start := true, written := 0 },
    write_line_full_eval c K.flatten htb2 hw hcs hwr how, ?_⟩
  have hfills : lfillOf c.justify (c.width - (utflen K.flatten + c.written))
      + rfillOf c.justify (c.width - (utflen K.flatten + c.written))
      = c.width - (utflen K.flatten + c.written) := by
    cases hj : c.justify
    · simp [lfillOf, rfillOf]
    · simp [lfillOf, rfillOf]
    · simp only [lfillOf, rfillOf]
      omega
  have e1 := utflenAux_fill (lfillOf c.justify (c.width - (utflen K.flatten + c.written)))
    (K.flatten ++ draw_fill (rfillOf c.justify (c.width - (utflen K.flatten + c.written))))
  have e2 := utflenAux_flatten_chunks K
    (draw_fill (rfillOf c.justify (c.width - (utflen K.flatten + c.written)))) hK
  have e3 : utflenAux 0
      (draw_fill (rfillOf c.justify (c.width - (utflen K.flatten + c.written)))) =
      rfillOf c.justify (c.width - (utflen K.flatten + c.written)) := by
    have h0 := utflenAux_fill
      (rfillOf c.justify (c.width - (utflen K.flatten + c.written))) []
    simpa [utflenAux] using h0
  rw [utflen, List.append_assoc, e1, e2, e3]
  rw [hcount, hz] at hfills
  rw [hcount, hz]
  omega

/-- C3 amended-claim witness: the theorem applied to a width-5
right-truncating character-wrap cell holding the valid sequence `"abc"`. -/
theorem truncate_cell_row_close_single_line_width_witness :
    validSeq [[97], [98], [99]] = true ∧
    cellC3w.buf = ([[97], [98], [99]] : List (List Nat)).flatten ∧
    utflen cellC3w.ellipsis < cellC3w.width ∧
    (∃ mid c1, write_line cellC3w true =
        some (cellC3w.lpad ++ mid ++ cellC3w.rpad, c1, true) ∧
      utflen mid = cellC3w.width) :=
  ⟨by decide, by decide, by decide,
   truncate_cell_row_close_single_line_width cellC3w [[97], [98], [99]]
     [[0xE2, 0x80, 0xA6]] (by decide) (by decide) (by decide) (by decide)
     (by decide) (by decide) (by decide) (by decide) (by decide) (by decide)⟩

end IosFilter
